import Mathlib

/-!
Verification of `pymodbus/bit_read_message.py`: bit-reading request and
response messages (Modbus function codes 1 and 2).

The Python source is shallowly embedded: bytes become `List Nat` (each
entry a value in `[0,255]` when produced by the code), Python `None` becomes
`Option`, and operations that raise (`struct.pack`/`struct.unpack` errors,
`chr` out of range) return `Option`. Helpers that live in other modules of
the repository (`pymodbus.utilities`, `pymodbus.pdu`) are modelled from the
specification and marked as such in their doc comments.
-/

namespace BitReadMessage

/-- Embeds `ReadBitsRequestBase`: a request holds a start address, a count,
and the function code fixed by the concrete subclass (1 for coils, 2 for
discrete inputs). -/
structure ReadBitsRequest where
  function_code : Nat
  address : Nat
  count : Nat
  deriving Repr, DecidableEq

/-- Embeds `ReadCoilsRequest.function_code = 1`. -/
def ReadCoilsRequest.function_code : Nat := 1

/-- Embeds `ReadDiscreteInputsRequest.function_code = 2`. -/
def ReadDiscreteInputsRequest.function_code : Nat := 2

/-- Embeds `ReadCoilsRequest.__init__(address, count)`. -/
def mkReadCoilsRequest (address count : Nat) : ReadBitsRequest :=
  ⟨ReadCoilsRequest.function_code, address, count⟩

/-- Embeds `ReadDiscreteInputsRequest.__init__(address, count)`. -/
def mkReadDiscreteInputsRequest (address count : Nat) : ReadBitsRequest :=
  ⟨ReadDiscreteInputsRequest.function_code, address, count⟩

/-- Embeds `ReadBitsRequestBase.encode`:
`struct.pack('>HH', self.address, self.count)`, i.e. the start address and
the count as big-endian unsigned 16-bit integers.  `struct.pack` raises
`struct.error` when a value does not fit in 16 bits, modelled as `none`. -/
def ReadBitsRequestBase.encode (r : ReadBitsRequest) : Option (List Nat) :=
  if r.address ≤ 0xffff ∧ r.count ≤ 0xffff then
    some [r.address / 256, r.address % 256, r.count / 256, r.count % 256]
  else
    none

/-- Embeds `ReadBitsRequestBase.decode`:
`struct.unpack('>HH', data)`, which raises `struct.error` (modelled as
`none`) unless `data` is exactly 4 bytes, and otherwise recovers the
address and count from the two big-endian 16-bit fields with no further
validation. -/
def ReadBitsRequestBase.decode (data : List Nat) : Option (Nat × Nat) :=
  match data with
  | [a1, a0, c1, c0] => some (a1 * 256 + a0, c1 * 256 + c0)
  | _ => none

/-- Embeds `ReadBitsResponseBase`: a response holds a bit sequence and the
function code fixed by the concrete subclass. -/
structure ReadBitsResponse where
  function_code : Nat
  bits : List Bool
  deriving Repr, DecidableEq

/-- Embeds `ReadBitsResponseBase.__init__(values)`:
`if values != None: self.bits = values else: self.bits = []`. -/
def ReadBitsResponseBase.init (values : Option (List Bool)) : List Bool :=
  match values with
  | some v => v
  | none => []

/-- Embeds `ReadCoilsResponse.__init__(values=None)` (function code 1). -/
def mkReadCoilsResponse (values : Option (List Bool)) : ReadBitsResponse :=
  ⟨1, ReadBitsResponseBase.init values⟩

/-- Embeds `ReadDiscreteInputsResponse.__init__(values=None)` (function code 2). -/
def mkReadDiscreteInputsResponse (values : Option (List Bool)) : ReadBitsResponse :=
  ⟨2, ReadBitsResponseBase.init values⟩

/-- Packs up to 8 booleans into one byte, least-significant-bit first:
position `j` of the list lands at bit `j` of the byte. -/
def packByte (bits : List Bool) : Nat :=
  bits.foldr (fun b acc => cond b 1 0 + 2 * acc) 0

/-- Modelled from the spec: `packBitsToString` from `pymodbus.utilities`
(imported by the source but not part of it). Per the spec, the bit at
logical position `p` is stored at bit `p mod 8` of byte `p div 8`,
least-significant-bit-first within each byte, and positions beyond the last
multiple of 8 are zero-padded at the high end of the final byte. -/
def packBitsToString : List Bool → List Nat
  | [] => []
  | b0 :: b1 :: b2 :: b3 :: b4 :: b5 :: b6 :: b7 :: rest =>
      packByte [b0, b1, b2, b3, b4, b5, b6, b7] :: packBitsToString rest
  | bits => [packByte bits]

/-- Unpacks one byte into its 8 bits, least-significant-bit first. -/
def natToBits : Nat → Nat → List Bool
  | 0, _ => []
  | k + 1, n => decide (n % 2 = 1) :: natToBits k (n / 2)

/-- The 8 bits of a byte, least-significant-bit first. -/
def byteToBits (n : Nat) : List Bool := natToBits 8 n

/-- Modelled from the spec: `unpackBitsFromString` from `pymodbus.utilities`
(imported by the source but not part of it). Per the spec, it reads the
leading length byte and unpacks exactly that many following bytes
LSB-first; trailing padding bits remain present. It returns the bit list
together with the byte count, and fails on input too short to contain the
announced bytes. -/
def unpackBitsFromString (data : List Nat) : Option (List Bool × Nat) :=
  match data with
  | [] => none
  | n :: rest =>
      if n ≤ rest.length then
        some (List.flatten ((rest.take n).map byteToBits), n)
      else
        none

/-- Embeds `ReadBitsResponseBase.encode`:
`ret = packBitsToString(self.bits); return chr(len(ret)) + ret`.
Python 2 `chr` raises (modelled as `none`) unless its argument is at most
255, so the packed payload must fit in 255 bytes. -/
def ReadBitsResponseBase.encode (bits : List Bool) : Option (List Nat) :=
  let ret := packBitsToString bits
  if ret.length ≤ 255 then some (ret.length :: ret) else none

/-- Embeds `ReadBitsResponseBase.decode`:
`self.bits = unpackBitsFromString(data)[0]`. -/
def ReadBitsResponseBase.decode (data : List Nat) : Option (List Bool) :=
  (unpackBitsFromString data).map Prod.fst

/-- Modelled from the spec: the exception codes `IllegalValue` and
`IllegalAddress` of `ModbusExceptions` from `pymodbus.pdu` (imported by the
source but not part of it). -/
inductive ModbusExceptions where
  | illegalValue
  | illegalAddress
  deriving Repr, DecidableEq

/-- Result of `execute`: either a protocol exception response or a normal
bit-reading response. -/
inductive ExecResult where
  | exceptionResponse (function_code : Nat) (code : ModbusExceptions)
  | response (r : ReadBitsResponse)
  deriving Repr, DecidableEq

/-- Modelled from the spec: `ModbusRequest.doException` from `pymodbus.pdu`
(imported by the source but not part of it). Per the spec it produces an
exception-response value carrying `function_code | 0x80` plus the exception
code. -/
def doException (function_code : Nat) (code : ModbusExceptions) : ExecResult :=
  .exceptionResponse (function_code ||| 0x80) code

/-- The external data-store collaborator: `validate` and `getValues`, each
taking the function code, start address and count. -/
structure DataStoreContext where
  validate : Nat → Nat → Nat → Bool
  getValues : Nat → Nat → Nat → List Bool

/-- One call made by `execute` into the data-store context; `execute` below
returns the ordered list of such calls so that "the context is never
invoked" is expressible. -/
inductive CtxCall where
  | validateCall (function_code address count : Nat)
  | getValuesCall (function_code address count : Nat)
  deriving Repr, DecidableEq

/-- Embeds `ReadCoilsRequest.execute(context)`, instrumented with the
ordered list of calls made into the context:
`if not (1 <= self.count <= 0x7d0): return self.doException(merror.IllegalValue)`;
`if not context.validate(self.function_code, self.address, self.count): return self.doException(merror.IllegalAddress)`;
`values = context.getValues(self.function_code, self.address, self.count)`;
`return ReadCoilsResponse(values)`. -/
def ReadCoilsRequest.execute (r : ReadBitsRequest) (context : DataStoreContext) :
    ExecResult × List CtxCall :=
  let fc := ReadCoilsRequest.function_code
  if ¬ (1 ≤ r.count ∧ r.count ≤ 0x7d0) then
    (doException fc .illegalValue, [])
  else if ¬ context.validate fc r.address r.count then
    (doException fc .illegalAddress, [.validateCall fc r.address r.count])
  else
    (.response (mkReadCoilsResponse (some (context.getValues fc r.address r.count))),
     [.validateCall fc r.address r.count, .getValuesCall fc r.address r.count])

/-- Embeds `ReadDiscreteInputsRequest.execute(context)`, instrumented with
the ordered list of calls made into the context; identical to the coils
variant except for the function code and the response constructor. -/
def ReadDiscreteInputsRequest.execute (r : ReadBitsRequest) (context : DataStoreContext) :
    ExecResult × List CtxCall :=
  let fc := ReadDiscreteInputsRequest.function_code
  if ¬ (1 ≤ r.count ∧ r.count ≤ 0x7d0) then
    (doException fc .illegalValue, [])
  else if ¬ context.validate fc r.address r.count then
    (doException fc .illegalAddress, [.validateCall fc r.address r.count])
  else
    (.response (mkReadDiscreteInputsResponse (some (context.getValues fc r.address r.count))),
     [.validateCall fc r.address r.count, .getValuesCall fc r.address r.count])

/-- A concrete data store that accepts every request and returns the bit
pattern of the spec's worked example (`[1,0,1,1,0]`). -/
def sampleContext : DataStoreContext :=
  ⟨fun _ _ _ => true, fun _ _ _ => [true, false, true, true, false]⟩

/-- A concrete data store that accepts every request and returns `count`
bits, honouring the data-store contract on lengths. -/
def replicateContext : DataStoreContext :=
  ⟨fun _ _ _ => true, fun _ _ count => List.replicate count true⟩

/-- A concrete data store that rejects every request. -/
def rejectContext : DataStoreContext :=
  ⟨fun _ _ _ => false, fun _ _ _ => []⟩

/-! ## Claim C5: request encode/decode roundtrip -/

/-- Claim C5: for every address in [0,65535] and count in [1,65535], the
request encoding is exactly 4 bytes, big-endian address then count, and
request decode applied to that encoding recovers (address, count)
unchanged.  Both request variants share this encoder, so the function code
is arbitrary here. -/
theorem request_encode_four_bytes_roundtrip (function_code address count : Nat)
    (ha : address ≤ 65535) (hc1 : 1 ≤ count) (hc2 : count ≤ 65535) :
    ReadBitsRequestBase.encode ⟨function_code, address, count⟩
        = some [address / 256, address % 256, count / 256, count % 256] ∧
    [address / 256, address % 256, count / 256, count % 256].length = 4 ∧
    ReadBitsRequestBase.decode [address / 256, address % 256, count / 256, count % 256]
        = some (address, count) := by
  refine ⟨?_, rfl, ?_⟩
  · simp [ReadBitsRequestBase.encode, ha, hc2]
  · simp only [ReadBitsRequestBase.decode, Option.some.injEq, Prod.mk.injEq]
    omega

/-- Witness for `request_encode_four_bytes_roundtrip` at address 258 and
count 772. -/
theorem request_encode_four_bytes_roundtrip_witness :
    ReadBitsRequestBase.encode ⟨1, 258, 772⟩ = some [1, 2, 3, 4] ∧
    ReadBitsRequestBase.decode [1, 2, 3, 4] = some (258, 772) := by
  have h := request_encode_four_bytes_roundtrip 1 258 772 (by decide) (by decide) (by decide)
  exact ⟨h.1, h.2.2⟩

/-! ## Claim C6: request decode fails exactly on wrong length -/

/-- Claim C6: request decode fails (raising `struct.error`, the spec's
FrameError, modelled as `none`) exactly when the input is not 4 bytes long;
equivalently, on any 4-byte input it succeeds regardless of byte content,
with no range validation. -/
theorem request_decode_fails_iff_length_ne_four (data : List Nat) :
    ReadBitsRequestBase.decode data = none ↔ data.length ≠ 4 := by
  rcases data with _ | ⟨a, _ | ⟨b, _ | ⟨c, _ | ⟨d, _ | ⟨e, rest⟩⟩⟩⟩⟩ <;>
    simp [ReadBitsRequestBase.decode]

/-! ## Claim C9: the two request variants encode identically -/

/-- Claim C9: a ReadCoilsRequest and a ReadDiscreteInputsRequest built from
the same (address, count) produce identical encodings (a 4-byte body
whenever the fields fit 16 bits), and the two differ only in their
function_code attribute (1 versus 2): address and count agree. -/
theorem request_variants_encode_identical (address count : Nat) :
    ReadBitsRequestBase.encode (mkReadCoilsRequest address count)
        = ReadBitsRequestBase.encode (mkReadDiscreteInputsRequest address count) ∧
    (mkReadCoilsRequest address count).function_code = 1 ∧
    (mkReadDiscreteInputsRequest address count).function_code = 2 ∧
    (mkReadCoilsRequest address count).address
        = (mkReadDiscreteInputsRequest address count).address ∧
    (mkReadCoilsRequest address count).count
        = (mkReadDiscreteInputsRequest address count).count ∧
    (address ≤ 65535 → count ≤ 65535 →
      (ReadBitsRequestBase.encode (mkReadCoilsRequest address count)).map List.length
        = some 4) := by
  refine ⟨rfl, rfl, rfl, rfl, rfl, fun ha hc => ?_⟩
  simp [ReadBitsRequestBase.encode, mkReadCoilsRequest, ha, hc]

/-- Witness for `request_variants_encode_identical` at address 7, count 9. -/
theorem request_variants_encode_identical_witness :
    (ReadBitsRequestBase.encode (mkReadCoilsRequest 7 9)).map List.length = some 4 :=
  (request_variants_encode_identical 7 9).2.2.2.2.2 (by decide) (by decide)

/-! ## Claim C10: absent values become an empty bit list -/

/-- Claim C10: constructing a response with values absent (Python `None`,
the constructor default) yields `bits = []` rather than `None`, so encode
is defined on it and produces a byte count of 0: the single byte `[0]`. -/
theorem response_none_values_empty_bits :
    mkReadCoilsResponse none = ⟨1, []⟩ ∧
    mkReadDiscreteInputsResponse none = ⟨2, []⟩ ∧
    ReadBitsResponseBase.encode (mkReadCoilsResponse none).bits = some [0] ∧
    ReadBitsResponseBase.encode (mkReadDiscreteInputsResponse none).bits = some [0] := by
  exact ⟨rfl, rfl, rfl, rfl⟩

/-! ## Normal forms for the two execute methods -/

/-- Normal form of `ReadCoilsRequest.execute` as a nested conditional with
the guards stated positively. -/
theorem coils_execute_eq (address count : Nat) (context : DataStoreContext) :
    ReadCoilsRequest.execute (mkReadCoilsRequest address count) context =
      if 1 ≤ count ∧ count ≤ 2000 then
        if context.validate 1 address count then
          (.response ⟨1, context.getValues 1 address count⟩,
            [.validateCall 1 address count, .getValuesCall 1 address count])
        else
          (doException 1 .illegalAddress, [.validateCall 1 address count])
      else
        (doException 1 .illegalValue, []) := by
  simp only [ReadCoilsRequest.execute, mkReadCoilsRequest, ReadCoilsRequest.function_code,
    mkReadCoilsResponse, ReadBitsResponseBase.init, ite_not]

/-- Normal form of `ReadDiscreteInputsRequest.execute` as a nested
conditional with the guards stated positively. -/
theorem discrete_inputs_execute_eq (address count : Nat)
    (context : DataStoreContext) :
    ReadDiscreteInputsRequest.execute (mkReadDiscreteInputsRequest address count) context =
      if 1 ≤ count ∧ count ≤ 2000 then
        if context.validate 2 address count then
          (.response ⟨2, context.getValues 2 address count⟩,
            [.validateCall 2 address count, .getValuesCall 2 address count])
        else
          (doException 2 .illegalAddress, [.validateCall 2 address count])
      else
        (doException 2 .illegalValue, []) := by
  simp only [ReadDiscreteInputsRequest.execute, mkReadDiscreteInputsRequest,
    ReadDiscreteInputsRequest.function_code, mkReadDiscreteInputsResponse,
    ReadBitsResponseBase.init, ite_not]

/-! ## Claim C1: the count range check comes first -/

/-- Claim C1: for both request variants and every context, execute returns
an IllegalValue exception response exactly when count is outside [1,2000],
and when it does, no call into the context has been made (the recorded call
trace is empty). -/
theorem execute_illegal_value_iff_count_out_of_range
    (address count : Nat) (context : DataStoreContext) :
    ((ReadCoilsRequest.execute (mkReadCoilsRequest address count) context).1
        = doException 1 .illegalValue ↔ ¬ (1 ≤ count ∧ count ≤ 2000)) ∧
    ((ReadDiscreteInputsRequest.execute (mkReadDiscreteInputsRequest address count) context).1
        = doException 2 .illegalValue ↔ ¬ (1 ≤ count ∧ count ≤ 2000)) ∧
    (¬ (1 ≤ count ∧ count ≤ 2000) →
      (ReadCoilsRequest.execute (mkReadCoilsRequest address count) context).2 = [] ∧
      (ReadDiscreteInputsRequest.execute (mkReadDiscreteInputsRequest address count) context).2
        = []) := by
  rw [coils_execute_eq, discrete_inputs_execute_eq]
  by_cases h : 1 ≤ count ∧ count ≤ 2000 <;>
    cases hb1 : context.validate 1 address count <;>
    cases hb2 : context.validate 2 address count <;>
      simp [h, hb1, hb2, doException]

/-- Witness for `execute_illegal_value_iff_count_out_of_range`: count 0 and
count 2001 yield IllegalValue with an empty call trace, while count 2000
does not yield IllegalValue. -/
theorem execute_illegal_value_iff_count_out_of_range_witness :
    (ReadCoilsRequest.execute (mkReadCoilsRequest 3 0) replicateContext).1
        = doException 1 .illegalValue ∧
    (ReadCoilsRequest.execute (mkReadCoilsRequest 3 0) replicateContext).2 = [] ∧
    (ReadCoilsRequest.execute (mkReadCoilsRequest 3 2001) replicateContext).1
        = doException 1 .illegalValue ∧
    ¬ (ReadCoilsRequest.execute (mkReadCoilsRequest 3 2000) replicateContext).1
        = doException 1 .illegalValue := by
  refine ⟨?_, ?_, ?_, ?_⟩
  · exact (execute_illegal_value_iff_count_out_of_range 3 0 replicateContext).1.mpr
      (by decide)
  · exact ((execute_illegal_value_iff_count_out_of_range 3 0 replicateContext).2.2
      (by decide)).1
  · exact (execute_illegal_value_iff_count_out_of_range 3 2001 replicateContext).1.mpr
      (by decide)
  · intro hc
    exact absurd ((execute_illegal_value_iff_count_out_of_range 3 2000 replicateContext).1.mp
      hc) (by decide)

/-! ## Claim C2: a rejected validation yields IllegalAddress -/

/-- Claim C2: for count in [1,2000], if the context's validate returns
false then execute returns an IllegalAddress exception response, the call
trace records exactly the validate call, and getValues is never invoked. -/
theorem execute_illegal_address_when_validate_false
    (address count : Nat) (context : DataStoreContext)
    (hc1 : 1 ≤ count) (hc2 : count ≤ 2000) :
    (context.validate 1 address count = false →
      (ReadCoilsRequest.execute (mkReadCoilsRequest address count) context).1
          = doException 1 .illegalAddress ∧
      (ReadCoilsRequest.execute (mkReadCoilsRequest address count) context).2
          = [.validateCall 1 address count] ∧
      ∀ f a c, CtxCall.getValuesCall f a c ∉
        (ReadCoilsRequest.execute (mkReadCoilsRequest address count) context).2) ∧
    (context.validate 2 address count = false →
      (ReadDiscreteInputsRequest.execute (mkReadDiscreteInputsRequest address count) context).1
          = doException 2 .illegalAddress ∧
      (ReadDiscreteInputsRequest.execute (mkReadDiscreteInputsRequest address count) context).2
          = [.validateCall 2 address count] ∧
      ∀ f a c, CtxCall.getValuesCall f a c ∉
        (ReadDiscreteInputsRequest.execute (mkReadDiscreteInputsRequest address count)
          context).2) := by
  rw [coils_execute_eq, discrete_inputs_execute_eq]
  constructor <;> intro hv <;> simp [hv, hc1, hc2, doException]

/-- Witness for `execute_illegal_address_when_validate_false` at address
10, count 5 against the always-rejecting store. -/
theorem execute_illegal_address_when_validate_false_witness :
    (ReadCoilsRequest.execute (mkReadCoilsRequest 10 5) rejectContext).1
        = doException 1 .illegalAddress ∧
    (ReadCoilsRequest.execute (mkReadCoilsRequest 10 5) rejectContext).2
        = [.validateCall 1 10 5] := by
  have h := (execute_illegal_address_when_validate_false 10 5 rejectContext
    (by decide) (by decide)).1 rfl
  exact ⟨h.1, h.2.1⟩

/-! ## Claim C3: the success path returns the store's bits -/

/-- Claim C3: for count in [1,2000] and a context whose validate returns
true, execute returns a non-exception response whose bits are exactly
`context.getValues(function_code, address, count)` and whose function code
is the request's function code (1 for coils, 2 for discrete inputs). -/
theorem execute_success_returns_store_bits
    (address count : Nat) (context : DataStoreContext)
    (hc1 : 1 ≤ count) (hc2 : count ≤ 2000) :
    (context.validate 1 address count = true →
      (ReadCoilsRequest.execute (mkReadCoilsRequest address count) context).1
          = .response ⟨1, context.getValues 1 address count⟩) ∧
    (context.validate 2 address count = true →
      (ReadDiscreteInputsRequest.execute (mkReadDiscreteInputsRequest address count) context).1
          = .response ⟨2, context.getValues 2 address count⟩) := by
  rw [coils_execute_eq, discrete_inputs_execute_eq]
  constructor <;> intro hv <;> simp [hv, hc1, hc2]

/-- Witness for `execute_success_returns_store_bits`: the spec's worked
example, address 10 and count 5 against a store holding `[1,0,1,1,0]`. -/
theorem execute_success_returns_store_bits_witness :
    (ReadCoilsRequest.execute (mkReadCoilsRequest 10 5) sampleContext).1
        = .response ⟨1, [true, false, true, true, false]⟩ := by
  have h := (execute_success_returns_store_bits 10 5 sampleContext
    (by decide) (by decide)).1 rfl
  simpa using h

/-! ## Claim C4: success responses carry count bits -/

/-- Claim C4: under the data-store contract that getValues returns exactly
count booleans, every response produced by execute on the success path has
a bits sequence of length equal to the request's count. -/
theorem execute_response_bits_length
    (address count : Nat) (context : DataStoreContext)
    (hlen1 : (context.getValues 1 address count).length = count)
    (hlen2 : (context.getValues 2 address count).length = count) :
    (∀ resp, (ReadCoilsRequest.execute (mkReadCoilsRequest address count) context).1
        = .response resp → resp.bits.length = count) ∧
    (∀ resp, (ReadDiscreteInputsRequest.execute (mkReadDiscreteInputsRequest address count)
        context).1 = .response resp → resp.bits.length = count) := by
  rw [coils_execute_eq, discrete_inputs_execute_eq]
  constructor <;> intro resp hr <;>
  · split at hr
    · split at hr
      · simp only [ExecResult.response.injEq] at hr
        subst hr
        first
          | exact hlen1
          | exact hlen2
      · exact absurd hr (by simp [doException])
    · exact absurd hr (by simp [doException])

/-- Witness for `execute_response_bits_length` at address 10, count 5
against a store returning 5 bits. -/
theorem execute_response_bits_length_witness :
    (⟨1, List.replicate 5 true⟩ : ReadBitsResponse).bits.length = 5 :=
  (execute_response_bits_length 10 5 replicateContext (by decide) (by decide)).1
    ⟨1, List.replicate 5 true⟩ (by decide)

/-! ## Bit-packing lemmas -/

/-- Unfolding lemma: packing a nonempty bit list packs its first (up to) 8
bits into one byte and recurses on the rest. -/
theorem packBitsToString_cons (l : List Bool) (h : l ≠ []) :
    packBitsToString l = packByte (l.take 8) :: packBitsToString (l.drop 8) := by
  rcases l with _ | ⟨b0, _ | ⟨b1, _ | ⟨b2, _ | ⟨b3, _ | ⟨b4, _ | ⟨b5, _ | ⟨b6, _ |
    ⟨b7, rest⟩⟩⟩⟩⟩⟩⟩⟩ <;> first | exact absurd rfl h | rfl

/-- Unpacking the byte 0 gives all-false bits. -/
theorem natToBits_zero_val (k : Nat) : natToBits k 0 = List.replicate k false := by
  induction k with
  | zero => rfl
  | succ k ih => simp [natToBits, ih, List.replicate]

/-- natToBits always produces exactly the requested number of bits. -/
theorem natToBits_length (k : Nat) : ∀ n, (natToBits k n).length = k := by
  induction k with
  | zero => intro n; rfl
  | succ k ih => intro n; simp [natToBits, ih]

/-- Unpacking a packed group of at most k bits recovers the group followed
by false padding up to width k. -/
theorem natToBits_packByte (bits : List Bool) :
    ∀ k, bits.length ≤ k →
      natToBits k (packByte bits) = bits ++ List.replicate (k - bits.length) false := by
  induction bits with
  | nil =>
    intro k hk
    simp [packByte, natToBits_zero_val]
  | cons b rest ih =>
    intro k hk
    cases k with
    | zero => simp at hk
    | succ k =>
      have hpack : packByte (b :: rest) = cond b 1 0 + 2 * packByte rest := rfl
      have h1 : (cond b 1 0 + 2 * packByte rest) % 2 = cond b 1 0 := by
        cases b <;> simp
      have h2 : (cond b 1 0 + 2 * packByte rest) / 2 = packByte rest := by
        cases b <;> simp
        omega
      rw [hpack, natToBits, h1, h2, ih k (by simpa using hk)]
      cases b <;> simp

/-- The packed payload has one byte per 8 bits, rounded up (bounded form
for induction on the fuel n). -/
theorem packBitsToString_length_aux :
    ∀ (n : Nat) (l : List Bool), l.length ≤ n →
      (packBitsToString l).length = (l.length + 7) / 8 := by
  intro n
  induction n with
  | zero =>
    intro l h
    have : l = [] := List.eq_nil_of_length_eq_zero (Nat.le_zero.mp h)
    subst this
    rfl
  | succ n ih =>
    intro l h
    rcases eq_or_ne l [] with rfl | hne
    · rfl
    · have hpos : 1 ≤ l.length := List.length_pos.mpr hne
      rw [packBitsToString_cons l hne, List.length_cons,
        ih (l.drop 8) (by simp [List.length_drop]; omega), List.length_drop]
      omega

/-- The packed payload has one byte per 8 bits, rounded up. -/
theorem packBitsToString_length (l : List Bool) :
    (packBitsToString l).length = (l.length + 7) / 8 :=
  packBitsToString_length_aux l.length l le_rfl

/-- Unpacking every packed byte LSB-first recovers the original bits
followed by false padding up to the byte boundary (bounded form for
induction on the fuel n). -/
theorem flatten_packBitsToString_aux :
    ∀ (n : Nat) (l : List Bool), l.length ≤ n →
      List.flatten ((packBitsToString l).map byteToBits)
        = l ++ List.replicate (8 * ((l.length + 7) / 8) - l.length) false := by
  intro n
  induction n with
  | zero =>
    intro l h
    have : l = [] := List.eq_nil_of_length_eq_zero (Nat.le_zero.mp h)
    subst this
    rfl
  | succ n ih =>
    intro l h
    rcases eq_or_ne l [] with rfl | hne
    · rfl
    · have hpos : 1 ≤ l.length := List.length_pos.mpr hne
      rw [packBitsToString_cons l hne, List.map_cons, List.flatten_cons, byteToBits,
        natToBits_packByte (l.take 8) 8 (by simp [List.length_take]),
        ih (l.drop 8) (by simp [List.length_drop]; omega)]
      rcases le_or_lt l.length 8 with hle | hlt
      · rw [List.take_of_length_le hle, List.drop_eq_nil_of_le hle]
        have h0 : 8 * ((([] : List Bool).length + 7) / 8) - ([] : List Bool).length = 0 := by
          simp
        rw [h0]
        have hY : 8 * ((l.length + 7) / 8) - l.length = 8 - l.length := by omega
        simp [hY]
      · have hx : (l.take 8).length = 8 := by simp [List.length_take]; omega
        rw [hx]
        have hY : 8 * (((l.drop 8).length + 7) / 8) - (l.drop 8).length
            = 8 * ((l.length + 7) / 8) - l.length := by
          simp only [List.length_drop]
          omega
        rw [hY]
        simp only [Nat.sub_self, List.replicate, List.append_nil]
        rw [← List.append_assoc, List.take_append_drop]

/-- Unpacking every packed byte LSB-first recovers the original bits
followed by false padding up to the byte boundary. -/
theorem flatten_packBitsToString (l : List Bool) :
    List.flatten ((packBitsToString l).map byteToBits)
      = l ++ List.replicate (8 * ((l.length + 7) / 8) - l.length) false :=
  flatten_packBitsToString_aux l.length l le_rfl

/-- Bit j of the unpacked byte is testBit j of the byte. -/
theorem natToBits_getD (k : Nat) :
    ∀ n j, j < k → (natToBits k n).getD j false = Nat.testBit n j := by
  induction k with
  | zero => intro n j h; omega
  | succ k ih =>
    intro n j h
    cases j with
    | zero => simp [natToBits]
    | succ j =>
      rw [natToBits, List.getD_cons_succ, ih (n / 2) j (by omega)]
      exact (Nat.testBit_add_one n j).symm

/-- Position p of the concatenated unpacked bits is bit p mod 8 of byte
p div 8. -/
theorem getD_flatten_byteToBits :
    ∀ (l : List Nat) (p : Nat), p < 8 * l.length →
      (List.flatten (l.map byteToBits)).getD p false
        = Nat.testBit (l.getD (p / 8) 0) (p % 8) := by
  intro l
  induction l with
  | nil => intro p hp; simp at hp
  | cons a t ih =>
    intro p hp
    rw [List.map_cons, List.flatten_cons]
    rcases lt_or_ge p 8 with h8 | h8
    · rw [List.getD_append _ _ _ _ (by rw [byteToBits, natToBits_length]; omega),
        byteToBits, natToBits_getD 8 a p h8]
      have h1 : p / 8 = 0 := by omega
      have h2 : p % 8 = p := by omega
      rw [h1, h2, List.getD_cons_zero]
    · rw [List.getD_append_right _ _ _ _ (by rw [byteToBits, natToBits_length]; omega),
        byteToBits, natToBits_length]
      have h1 : p / 8 = (p - 8) / 8 + 1 := by omega
      have h2 : p % 8 = (p - 8) % 8 := by omega
      rw [h1, h2, List.getD_cons_succ, ih (p - 8) (by simp at hp; omega)]

/-- Reading any position of an all-false list with default false gives
false. -/
theorem getD_replicate_false (k : Nat) :
    ∀ p, (List.replicate k false).getD p false = false := by
  induction k with
  | zero => intro p; simp
  | succ k ih => intro p; cases p <;> simp [List.replicate_succ, ih]

/-- Reading past the real bits into the false padding returns false, the
same default getD reports for an out-of-range index. -/
theorem getD_append_replicate_false (l : List Bool) (k p : Nat) :
    (l ++ List.replicate k false).getD p false = l.getD p false := by
  rcases lt_or_ge p l.length with h | h
  · exact List.getD_append _ _ _ _ h
  · rw [List.getD_append_right _ _ _ _ h, getD_replicate_false,
      List.getD_eq_default _ _ h]

/-! ## Claim C7: response decode of encode recovers the first count bits -/

/-- Claim C7: for every count in [1,2000] and every bit sequence of that
length, response decode applied to response encode succeeds and its first
count elements are exactly the original bits; the decoded sequence keeps
the trailing zero padding, having length 8 * ceil(count / 8). -/
theorem response_roundtrip_first_count_bits (count : Nat) (bits : List Bool)
    (hc1 : 1 ≤ count) (hc2 : count ≤ 2000) (hlen : bits.length = count) :
    ((ReadBitsResponseBase.encode bits).bind ReadBitsResponseBase.decode).map
        (fun bs => bs.take count) = some bits ∧
    ((ReadBitsResponseBase.encode bits).bind ReadBitsResponseBase.decode).map
        List.length = some (8 * ((count + 7) / 8)) := by
  have hplen : (packBitsToString bits).length = (count + 7) / 8 := by
    rw [packBitsToString_length, hlen]
  have h255 : (packBitsToString bits).length ≤ 255 := by omega
  have henc : ReadBitsResponseBase.encode bits
      = some ((packBitsToString bits).length :: packBitsToString bits) := by
    rw [ReadBitsResponseBase.encode]
    simp [h255]
  have hdec : ReadBitsResponseBase.decode
      ((packBitsToString bits).length :: packBitsToString bits)
        = some (bits ++ List.replicate (8 * ((count + 7) / 8) - count) false) := by
    rw [ReadBitsResponseBase.decode, unpackBitsFromString]
    simp only [le_refl, if_true, List.take_length, Option.map_some']
    rw [flatten_packBitsToString, hlen]
  rw [henc, Option.some_bind, hdec]
  constructor
  · simp only [Option.map_some', Option.some.injEq]
    rw [← hlen, List.take_left]
  · simp only [Option.map_some', Option.some.injEq, List.length_append,
      List.length_replicate, hlen]
    omega

/-- Witness for `response_roundtrip_first_count_bits` at count 3, bits
`[true, false, true]`. -/
theorem response_roundtrip_first_count_bits_witness :
    ((ReadBitsResponseBase.encode [true, false, true]).bind
        ReadBitsResponseBase.decode).map (fun bs => bs.take 3)
      = some [true, false, true] :=
  (response_roundtrip_first_count_bits 3 [true, false, true]
    (by decide) (by decide) rfl).1

/-! ## Claim C8: response encode byte count and LSB-first bit layout -/

/-- Claim C8: for every bit sequence of length in [1,2040], response encode
outputs a first byte equal to ceil(length / 8) followed by that many data
bytes, with the bit at logical position p stored at bit p mod 8 of data
byte p div 8 and unused high-order bits false (getD returns false both on
padding positions and past them); in particular encoding
`[true, false, true]` gives byte count 1 and the single data byte 5. -/
theorem response_encode_bit_layout (bits : List Bool)
    (h1 : 1 ≤ bits.length) (h2 : bits.length ≤ 2040) :
    ReadBitsResponseBase.encode bits
        = some (((bits.length + 7) / 8) :: packBitsToString bits) ∧
    (packBitsToString bits).length = (bits.length + 7) / 8 ∧
    (∀ p, p < 8 * ((bits.length + 7) / 8) →
      Nat.testBit ((packBitsToString bits).getD (p / 8) 0) (p % 8)
        = bits.getD p false) ∧
    ReadBitsResponseBase.encode [true, false, true] = some [1, 5] := by
  have hplen : (packBitsToString bits).length = (bits.length + 7) / 8 :=
    packBitsToString_length bits
  refine ⟨?_, hplen, ?_, by decide⟩
  · rw [ReadBitsResponseBase.encode]
    simp only [hplen]
    rw [if_pos (by omega)]
  · intro p hp
    rw [← getD_flatten_byteToBits (packBitsToString bits) p (by rw [hplen]; omega),
      flatten_packBitsToString, getD_append_replicate_false]

/-- Witness for `response_encode_bit_layout` on `[true, false, true]`:
byte count 1, data byte 5, and bit position 2 reads back true. -/
theorem response_encode_bit_layout_witness :
    ReadBitsResponseBase.encode [true, false, true] = some [1, 5] ∧
    Nat.testBit ((packBitsToString [true, false, true]).getD 0 0) 2
      = [true, false, true].getD 2 false := by
  have h := response_encode_bit_layout [true, false, true] (by decide) (by decide)
  exact ⟨h.2.2.2, h.2.2.1 2 (by decide)⟩

end BitReadMessage
